import Mathlib

/-!
Verification of the crawl state machine of `hou_docs_scraper.py`.

URLs, HTML text and filenames are modelled as `List Char`.  The helper
functions of Python's `urllib.parse` that the scraper calls (`urlparse`,
`urljoin`) are embedded following the CPython implementation for
http-style URLs; HTML parsing (BeautifulSoup) is external per the spec, so
a document is modelled as the list of its nodes, each node being either an
anchor carrying an href and its visible text, or any other content.
-/

set_option maxRecDepth 20000

/-- Python `s.split(c)[0]`: the characters before the first occurrence of `c`. -/
def takeUntil (c : Char) : List Char → List Char
  | [] => []
  | x :: rest => if x = c then [] else x :: takeUntil c rest

/-- Python `s.split(c, 1)[1]`: everything after the first occurrence of `c`
(empty when `c` does not occur). -/
def afterFirst (c : Char) : List Char → List Char
  | [] => []
  | x :: rest => if x = c then rest else afterFirst c rest

/-- Fuel-indexed worker for `replaceAll`; the fuel is the length of the list,
which bounds the number of steps. -/
def replaceAllAux (pat repl : List Char) : Nat → List Char → List Char
  | 0, l => l
  | Nat.succ n, l =>
    match l with
    | [] => []
    | c :: rest =>
      if pat ≠ [] ∧ pat.isPrefixOf (c :: rest) = true then
        repl ++ replaceAllAux pat repl n ((c :: rest).drop pat.length)
      else
        c :: replaceAllAux pat repl n rest

/-- Python `s.replace(pat, repl)`: replace every occurrence of `pat`,
scanning left to right. -/
def replaceAll (pat repl l : List Char) : List Char :=
  replaceAllAux pat repl l.length l

/-- Python `s.lower()` restricted to what scheme names need. -/
def lowerStr (l : List Char) : List Char :=
  l.map Char.toLower

/-- Characters allowed in a URL scheme after the initial letter
(CPython `scheme_chars`). -/
def schemeChar (c : Char) : Bool :=
  c.isAlphanum || c = '+' || c = '-' || c = '.'

/-- Worker scanning for the `:` that ends a scheme, requiring every
character before it to be a scheme character. -/
def splitSchemeAux (acc : List Char) : List Char → Option (List Char × List Char)
  | [] => none
  | c :: rest =>
    if c = ':' then some (acc.reverse, rest)
    else if schemeChar c then splitSchemeAux (c :: acc) rest
    else none

/-- Extract `scheme, rest` from a URL as CPython `urlsplit` does: the part
before the first `:` is a scheme when it starts with a letter and contains
only scheme characters. -/
def splitScheme : List Char → Option (List Char × List Char)
  | [] => none
  | c :: rest => if c.isAlpha then splitSchemeAux [c] rest else none

/-- Result of `urlsplit`: scheme, netloc, path, query, fragment. -/
structure UrlSplit where
  scheme : List Char
  netloc : List Char
  path : List Char
  query : List Char
  fragment : List Char
deriving DecidableEq, Repr

/-- CPython `urllib.parse.urlsplit` (with `allow_fragments=True`): split off
the scheme, then `//netloc` up to the next `/`, `?` or `#`, then the
fragment after the first `#`, then the query after the first `?`. -/
def urlsplit (url : List Char) (defaultScheme : List Char) : UrlSplit :=
  let sr : List Char × List Char :=
    match splitScheme url with
    | some (s, r) => (lowerStr s, r)
    | none => (defaultScheme, url)
  let scheme := sr.1
  let rest0 := sr.2
  let nr : List Char × List Char :=
    if rest0.take 2 = ['/', '/'] then
      ((rest0.drop 2).takeWhile (fun c => ¬ (c = '/' ∨ c = '?' ∨ c = '#')),
       (rest0.drop 2).dropWhile (fun c => ¬ (c = '/' ∨ c = '?' ∨ c = '#')))
    else ([], rest0)
  let netloc := nr.1
  let rest1 := nr.2
  let rf : List Char × List Char :=
    if '#' ∈ rest1 then (takeUntil '#' rest1, afterFirst '#' rest1) else (rest1, [])
  let rest2 := rf.1
  let fragment := rf.2
  let pq : List Char × List Char :=
    if '?' ∈ rest2 then (takeUntil '?' rest2, afterFirst '?' rest2) else (rest2, [])
  ⟨scheme, netloc, pq.1, pq.2, fragment⟩

/-- Result of `urlparse`: `urlsplit` plus params split off the last path
segment. -/
structure UrlParts where
  scheme : List Char
  netloc : List Char
  path : List Char
  params : List Char
  query : List Char
  fragment : List Char
deriving DecidableEq, Repr

/-- Schemes that allow relative resolution (CPython `uses_relative`). -/
def usesRelative : List (List Char) :=
  [[], ("ftp").data, ("http").data, ("gopher").data, ("nntp").data,
   ("imap").data, ("wais").data, ("file").data, ("https").data,
   ("shttp").data, ("mms").data, ("prospero").data, ("rtsp").data,
   ("rtspu").data, ("sftp").data, ("svn").data, ("svn+ssh").data,
   ("ws").data, ("wss").data]

/-- Schemes that use a network location (CPython `uses_netloc`). -/
def usesNetloc : List (List Char) :=
  [[], ("ftp").data, ("http").data, ("gopher").data, ("nntp").data,
   ("telnet").data, ("imap").data, ("wais").data, ("file").data,
   ("mms").data, ("https").data, ("shttp").data, ("snews").data,
   ("prospero").data, ("rtsp").data, ("rtspu").data, ("rsync").data,
   ("svn").data, ("svn+ssh").data, ("sftp").data, ("nfs").data,
   ("git").data, ("git+ssh").data, ("ws").data, ("wss").data]

/-- Schemes whose last path segment may carry `;params`
(CPython `uses_params`). -/
def usesParams : List (List Char) :=
  [[], ("ftp").data, ("hdl").data, ("prospero").data, ("http").data,
   ("imap").data, ("https").data, ("shttp").data, ("rtsp").data,
   ("rtspu").data, ("sip").data, ("sips").data, ("mms").data,
   ("sftp").data, ("tel").data]

/-- The final path segment of `path` (the characters after the last `/`,
or all of `path` when it has no slash). -/
def lastSegment (path : List Char) : List Char :=
  (path.reverse.takeWhile (fun c => c ≠ '/')).reverse

/-- CPython `_splitparams`: split `;params` off the last path segment. -/
def splitParams (path : List Char) : List Char × List Char :=
  let seg := lastSegment path
  let pre := path.take (path.length - seg.length)
  if ';' ∈ seg then (pre ++ takeUntil ';' seg, afterFirst ';' seg)
  else (path, [])

/-- CPython `urllib.parse.urlparse`: `urlsplit`, then split params when the
scheme uses them. -/
def urlparse (url : List Char) (defaultScheme : List Char) : UrlParts :=
  let s := urlsplit url defaultScheme
  let pp : List Char × List Char :=
    if s.scheme ∈ usesParams ∧ ';' ∈ s.path then splitParams s.path
    else (s.path, [])
  ⟨s.scheme, s.netloc, pp.1, pp.2, s.query, s.fragment⟩

/-- CPython `urlunsplit`. -/
def urlunsplit (scheme netloc path query fragment : List Char) : List Char :=
  let url0 := path
  let url1 :=
    if netloc ≠ [] ∨ (url0 ≠ [] ∧ url0.take 2 = ['/', '/']) then
      '/' :: '/' :: (netloc ++ (if url0 ≠ [] ∧ url0.take 1 ≠ ['/'] then '/' :: url0 else url0))
    else url0
  let url2 := if scheme ≠ [] then scheme ++ ':' :: url1 else url1
  let url3 := if query ≠ [] then url2 ++ '?' :: query else url2
  if fragment ≠ [] then url3 ++ '#' :: fragment else url3

/-- CPython `urlunparse`. -/
def urlunparse (p : UrlParts) : List Char :=
  urlunsplit p.scheme p.netloc
    (if p.params ≠ [] then p.path ++ ';' :: p.params else p.path)
    p.query p.fragment

/-- Python `path.split('/')`. -/
def splitSlash : List Char → List (List Char)
  | [] => [[]]
  | c :: rest =>
    if c = '/' then [] :: splitSlash rest
    else
      match splitSlash rest with
      | s :: ss => (c :: s) :: ss
      | [] => [[c]]

/-- Python `'/'.join(segs)`. -/
def joinSlash : List (List Char) → List Char
  | [] => []
  | [x] => x
  | x :: rest => x ++ '/' :: joinSlash rest

/-- CPython `urljoin`: `segments[1:-1] = filter(None, segments[1:-1])` —
drop empty segments, keeping the first and last entries. -/
def filterMiddleAux : List (List Char) → List (List Char)
  | [] => []
  | [y] => [y]
  | y :: rest => if y = [] then filterMiddleAux rest else y :: filterMiddleAux rest

/-- Keep the first and last segments, dropping empty ones in between. -/
def filterMiddle : List (List Char) → List (List Char)
  | [] => []
  | [x] => [x]
  | x :: rest => x :: filterMiddleAux rest

/-- Resolution of `.` and `..` segments in CPython `urljoin`: `..` pops the
accumulated path (ignoring underflow), `.` is dropped. -/
def resolveSegments (segs : List (List Char)) : List (List Char) :=
  segs.foldl
    (fun acc seg =>
      if seg = ['.', '.'] then acc.dropLast
      else if seg = ['.'] then acc
      else acc ++ [seg])
    []

/-- CPython `urllib.parse.urljoin` for http-style URLs, following the
reference implementation branch for branch. -/
def urljoin (base url : List Char) : List Char :=
  if base = [] then url
  else if url = [] then base
  else
    let b := urlparse base []
    let u := urlparse url b.scheme
    if u.scheme ≠ b.scheme ∨ u.scheme ∉ usesRelative then url
    else if u.scheme ∈ usesNetloc ∧ u.netloc ≠ [] then
      urlunparse ⟨u.scheme, u.netloc, u.path, u.params, u.query, u.fragment⟩
    else
      let netloc := if u.scheme ∈ usesNetloc then b.netloc else u.netloc
      if u.path = [] ∧ u.params = [] then
        let query := if u.query = [] then b.query else u.query
        urlunparse ⟨u.scheme, netloc, b.path, b.params, query, u.fragment⟩
      else
        let segments :=
          if u.path.take 1 = ['/'] then splitSlash u.path
          else
            let baseParts := splitSlash b.path
            let baseParts' :=
              if baseParts.getLast? = some [] then baseParts else baseParts.dropLast
            filterMiddle (baseParts' ++ splitSlash u.path)
        let resolved := resolveSegments segments
        let resolved' :=
          if segments.getLast? = some ['.'] ∨ segments.getLast? = some ['.', '.'] then
            resolved ++ [[]]
          else resolved
        let path := if joinSlash resolved' = [] then ['/'] else joinSlash resolved'
        urlunparse ⟨u.scheme, netloc, path, u.params, u.query, u.fragment⟩

/-- The module constant `START_URL` of `hou_docs_scraper.py`. -/
def START_URL : List Char :=
  ("http://127.0.0.1:48626/hom/hou/index.html").data

/-- `self.base_url` computed in `DocumentationScraper.__init__`:
`f"{urlparse(start_url).scheme}://{urlparse(start_url).netloc}"`. -/
def base_url (start_url : List Char) : List Char :=
  (urlparse start_url []).scheme ++ ':' :: '/' :: '/' :: (urlparse start_url []).netloc

/-- `DocumentationScraper.is_documentation_page`:
`return False if not url.startswith(START_URL.replace("index.html", "")) else True`.
Note that it reads the module constant `START_URL`, not the seed passed to
the constructor. -/
def is_documentation_page (url : List Char) : Bool :=
  if ¬ ((replaceAll (("index.html").data) [] START_URL).isPrefixOf url = true) then false
  else true

/-- Character class of `re.sub(r'[\\/*?:"<>|]', '_', filename)`. -/
def unsafeChar (c : Char) : Bool :=
  (['\\', '/', '*', '?', ':', '"', '<', '>', '|']).contains c

/-- `DocumentationScraper.get_filename_from_url`, step for step: strip the
query and fragment, delete every occurrence of `self.base_url`, turn `/`
into `_`, fall back to the netloc when empty, substitute unsafe characters,
append `.html` when missing, and strip leading underscores. -/
def get_filename_from_url (start_url url0 : List Char) : List Char :=
  let url := takeUntil '#' (takeUntil '?' url0)
  let f1 := replaceAll (base_url start_url) [] url
  let f2 := f1.map (fun c => if c = '/' then '_' else c)
  let f3 := if f2 = [] then (urlparse url []).netloc else f2
  let f4 := f3.map (fun c => if unsafeChar c = true then '_' else c)
  let f5 := if ((".html").data).isSuffixOf f4 = true then f4 else f4 ++ (".html").data
  f5.dropWhile (fun c => c = '_')

/-- A node of the parsed document: an anchor tag carrying an `href`
attribute and its visible text, or any other content (including anchors
without an href, which `find_all("a", href=True)` skips). -/
inductive Node where
  | a (href : List Char) (text : List Char)
  | other (text : List Char)
deriving DecidableEq, Repr

/-- The per-anchor transform of `DocumentationScraper.process_html_content`:
resolve the href, then rewrite fragment-bearing links to
`local_filename#fragment` when the base is a documentation page, keep
same-page fragments, and replace every other link by its text.
`fragment` is `absolute_url.split("#")[1]`: the characters between the
first and second `#`. -/
def processNode (start_url url : List Char) : Node → Node
  | Node.other s => Node.other s
  | Node.a href text =>
    let absolute := urljoin url href
    if '#' ∈ absolute then
      let b := takeUntil '#' absolute
      let fragment := takeUntil '#' (afterFirst '#' absolute)
      if is_documentation_page b = true then
        Node.a (get_filename_from_url start_url b ++ '#' :: fragment) text
      else if b = url then
        Node.a ('#' :: fragment) text
      else
        Node.other text
    else
      if is_documentation_page absolute = true then
        Node.a (get_filename_from_url start_url absolute) text
      else
        Node.other text

/-- `DocumentationScraper.process_html_content` on the parsed document. -/
def process_html_content (start_url url : List Char) (doc : List Node) : List Node :=
  doc.map (processNode start_url url)

/-- Loop body of `DocumentationScraper.extract_links`: append the resolved
href when it starts with `self.base_url` and contains no `#`. -/
def extractBody (start_url url : List Char) (links : List (List Char)) : Node → List (List Char)
  | Node.other _ => links
  | Node.a href _ =>
    let absolute := urljoin url href
    if (base_url start_url).isPrefixOf absolute = true ∧ '#' ∉ absolute then
      links ++ [absolute]
    else links

/-- `DocumentationScraper.extract_links`: collect, in document order, every
resolved href that starts with `self.base_url` and contains no `#`. -/
def extract_links (start_url url : List Char) (doc : List Node) : List (List Char) :=
  doc.foldl (extractBody start_url url) []

/-- Observable actions of one `scrape` run: a fetch issued for a URL, a
rewritten page persisted for a URL, and the inter-request `time.sleep`. -/
inductive Ev where
  | fetched (u : List Char)
  | persisted (u : List Char)
  | slept
deriving DecidableEq, Repr

/-- The mutable state of `DocumentationScraper.scrape`: `self.visited_urls`,
`self.to_visit`, the local `page_count`, plus the trace of events so far
(latest first). -/
structure SState where
  visited : List (List Char)
  to_visit : List (List Char)
  page_count : Nat
  events : List Ev
deriving DecidableEq, Repr

/-- The `while self.to_visit and (max_pages is None or page_count < max_pages)`
guard. -/
def loopCond (mp : Option Nat) (s : SState) : Bool :=
  (!s.to_visit.isEmpty) && (match mp with | none => true | some m => s.page_count < m)

/-- The enqueue loop at the end of a scraped page: append each link that is
neither in the visited set nor already in the queue. -/
def enqueue (visited : List (List Char)) (q : List (List Char))
    (links : List (List Char)) : List (List Char) :=
  links.foldl (fun q' link => if link ∈ visited ∨ link ∈ q' then q' else q' ++ [link]) q

/-- One iteration of the `scrape` loop body.  `web` is the Fetch Gateway
(`None` models a raised `requests.RequestException`), `parse` is the
external HTML parser applied to a fetched body.  An already-visited URL is
dropped; a failed or empty fetch (`if not html_content: continue`) marks
the URL visited and skips persistence, link extraction and the delay; an
out-of-scope page is fetched but not persisted; an in-scope page is
persisted, its links are enqueued, and the delay runs. -/
def scrape_step (start : List Char) (web : List Char → Option (List Char))
    (parse : List Char → List Node) (s : SState) : SState :=
  match s.to_visit with
  | [] => s
  | current :: rest =>
    if current ∈ s.visited then
      { s with to_visit := rest }
    else
      match web current with
      | none =>
        { s with visited := current :: s.visited, to_visit := rest,
                 events := Ev.fetched current :: s.events }
      | some html =>
        if html = [] then
          { s with visited := current :: s.visited, to_visit := rest,
                   events := Ev.fetched current :: s.events }
        else if is_documentation_page current = true then
          { visited := current :: s.visited,
            to_visit := enqueue (current :: s.visited) rest
              (extract_links start current (parse html)),
            page_count := s.page_count + 1,
            events := Ev.slept :: Ev.persisted current :: Ev.fetched current :: s.events }
        else
          { s with visited := current :: s.visited, to_visit := rest,
                   events := Ev.slept :: Ev.fetched current :: s.events }

/-- `DocumentationScraper.scrape`, fuel-indexed: run up to `fuel` loop
iterations of the while loop. -/
def scrape_run (start : List Char) (web : List Char → Option (List Char))
    (parse : List Char → List Node) (mp : Option Nat) : Nat → SState → SState
  | 0, s => s
  | Nat.succ n, s =>
    if loopCond mp s then scrape_run start web parse mp n (scrape_step start web parse s)
    else s

/-- The scraper state right after `__init__`. -/
def initState (start : List Char) : SState :=
  { visited := [], to_visit := [start], page_count := 0, events := [] }

/-- URLs of the `persisted` events of a trace, latest first. -/
def persistedUrls (evs : List Ev) : List (List Char) :=
  evs.filterMap (fun e => match e with | Ev.persisted u => some u | _ => none)

/-- URLs of the `fetched` events of a trace, latest first. -/
def fetchedUrls (evs : List Ev) : List (List Char) :=
  evs.filterMap (fun e => match e with | Ev.fetched u => some u | _ => none)

/-- The URLs a crawl can ever discover: the seed, plus everything extracted
from a successfully fetched, non-empty, in-scope page already discovered. -/
inductive Reaches (start : List Char) (web : List Char → Option (List Char))
    (parse : List Char → List Node) : List Char → Prop where
  | seed : Reaches start web parse start
  | step {u v h : List Char} :
      Reaches start web parse u → web u = some h → h ≠ [] →
      is_documentation_page u = true →
      v ∈ extract_links start u (parse h) →
      Reaches start web parse v

/-- The fragment-stripping of the spec: the part of a URL before its `#`. -/
def stripFragment (u : List Char) : List Char :=
  takeUntil '#' u

/-- Modelled from the spec: the Scope Root is "the seed URL with its final
path segment (e.g., an index filename) stripped". -/
def specScopeRoot (seed : List Char) : List Char :=
  seed.take (seed.length - (lastSegment seed).length)

lemma takeUntil_append_cons (c : Char) (u v : List Char) :
    takeUntil c (u ++ c :: v) = takeUntil c u := by
  induction u with
  | nil => simp [takeUntil]
  | cons a u ih =>
    by_cases ha : a = c
    · simp [takeUntil, ha]
    · simp [takeUntil, ha, ih]

lemma takeUntil_eq_self (c : Char) (l : List Char) (h : c ∉ l) :
    takeUntil c l = l := by
  induction l with
  | nil => simp [takeUntil]
  | cons a l ih =>
    have ha : a ≠ c := by
      intro hac
      exact h (by simp [hac])
    simp [takeUntil, ha]
    exact ih (fun hc => h (List.mem_cons_of_mem a hc))

lemma afterFirst_append_cons (c : Char) (u v : List Char) (h : c ∉ u) :
    afterFirst c (u ++ c :: v) = v := by
  induction u with
  | nil => simp [afterFirst]
  | cons a u ih =>
    have ha : a ≠ c := by
      intro hac
      exact h (by simp [hac])
    simp [afterFirst, ha]
    exact ih (fun hc => h (List.mem_cons_of_mem a hc))

lemma stripQF_append_hash (u f : List Char) :
    takeUntil '#' (takeUntil '?' (u ++ '#' :: f)) = takeUntil '#' (takeUntil '?' u) := by
  induction u with
  | nil => simp [takeUntil]
  | cons a u ih =>
    by_cases hq : a = '?'
    · simp [takeUntil, hq]
    · by_cases hh : a = '#'
      · simp [takeUntil, hq, hh]
      · simp [takeUntil, hq, hh, ih]

lemma isPrefixOf_takeUntil_hash :
    ∀ (p u : List Char), '#' ∉ p →
      p.isPrefixOf (takeUntil '#' u) = p.isPrefixOf u := by
  intro p
  induction p with
  | nil => intro u _; simp [List.isPrefixOf]
  | cons a p ih =>
    intro u hp
    have ha : a ≠ '#' := by
      intro hac
      exact hp (by simp [hac])
    cases u with
    | nil => simp [takeUntil]
    | cons c u' =>
      by_cases hc : c = '#'
      · subst hc
        simp [takeUntil, List.isPrefixOf, ha]
      · simp only [takeUntil, if_neg hc, List.isPrefixOf]
        rw [ih u' (fun h => hp (List.mem_cons_of_mem a h))]

/-- C1, counterexample: build the scraper with the seed
`http://example.com/docs/guide.html`.  The URL
`http://example.com/docs/other.html` starts with the Scope Root derived
from that seed (the seed with its final path segment stripped), yet
`is_documentation_page` classifies it out of scope, because the code tests
the prefix derived from the module constant `START_URL`, not the seed
passed at construction. -/
theorem classify_scope_ignores_seed :
    (specScopeRoot (("http://example.com/docs/guide.html").data)).isPrefixOf
        (stripFragment (("http://example.com/docs/other.html").data)) = true ∧
    is_documentation_page (("http://example.com/docs/other.html").data) = false := by
  decide

/-- C1, amended claim: for every URL `u`, `is_documentation_page u` holds
iff `u` (equivalently, `u` with any fragment stripped) starts with the
fixed prefix `START_URL.replace("index.html", "")`, which coincides with
the spec's Scope Root of the module constant `START_URL`; the seed passed
at construction plays no role. -/
theorem is_documentation_page_iff_start_url_root :
    ∀ url : List Char,
      is_documentation_page url
        = (specScopeRoot START_URL).isPrefixOf (stripFragment url) := by
  intro url
  have h2 : replaceAll (("index.html").data) [] START_URL
      = ("http://127.0.0.1:48626/hom/hou/").data := by decide
  have h1 : specScopeRoot START_URL = ("http://127.0.0.1:48626/hom/hou/").data := by decide
  simp only [is_documentation_page, stripFragment, h1, h2]
  rw [isPrefixOf_takeUntil_hash _ url (by decide)]
  by_cases hp : (("http://127.0.0.1:48626/hom/hou/").data).isPrefixOf url = true
  · simp [hp]
  · simp [hp]

/-- C4, counterexample: the two in-scope URLs `…/hom/hou/page` and
`…/hom/hou/page/` differ only by a trailing slash, yet their canonical
filenames differ — the trailing `/` becomes a trailing `_` kept in front of
the appended extension, so the documented collision does not occur. -/
theorem trailing_slash_no_collision :
    is_documentation_page (("http://127.0.0.1:48626/hom/hou/page").data) = true ∧
    is_documentation_page (("http://127.0.0.1:48626/hom/hou/page/").data) = true ∧
    ("http://127.0.0.1:48626/hom/hou/page/").data
      = ("http://127.0.0.1:48626/hom/hou/page").data ++ ['/'] ∧
    get_filename_from_url START_URL (("http://127.0.0.1:48626/hom/hou/page").data)
      = ("hom_hou_page.html").data ∧
    get_filename_from_url START_URL (("http://127.0.0.1:48626/hom/hou/page/").data)
      = ("hom_hou_page_.html").data ∧
    get_filename_from_url START_URL (("http://127.0.0.1:48626/hom/hou/page").data)
      ≠ get_filename_from_url START_URL (("http://127.0.0.1:48626/hom/hou/page/").data) := by
  decide

/-- C4, amended claim: `canonicalFilename` is total and crash-free, but the
intentional collisions are on query strings and fragments — appending
`?query` or `#fragment` to any URL never changes the filename — while two
URLs differing only by a trailing slash map to distinct filenames. -/
theorem get_filename_collision_structure :
    (∀ start u q : List Char,
        get_filename_from_url start (u ++ '?' :: q) = get_filename_from_url start u) ∧
    (∀ start u f : List Char,
        get_filename_from_url start (u ++ '#' :: f) = get_filename_from_url start u) ∧
    get_filename_from_url START_URL (("http://127.0.0.1:48626/hom/hou/page").data)
      ≠ get_filename_from_url START_URL (("http://127.0.0.1:48626/hom/hou/page/").data) := by
  refine ⟨?_, ?_, by decide⟩
  · intro start u q
    simp only [get_filename_from_url, takeUntil_append_cons]
  · intro start u f
    simp only [get_filename_from_url, stripQF_append_hash]

lemma mem_of_mem_dropWhile {p : Char → Bool} {l : List Char} {c : Char}
    (h : c ∈ l.dropWhile p) : c ∈ l :=
  (List.dropWhile_sublist p).subset h

lemma suffix_dropWhile_underscore :
    ∀ l : List Char, ((".html").data) <:+ l →
      ((".html").data) <:+ (l.dropWhile (fun c => c = '_')) := by
  intro l
  induction l with
  | nil =>
    intro h
    have := h.length_le
    simp at this
  | cons a l ih =>
    intro h
    by_cases ha : a = '_'
    · rcases List.suffix_cons_iff.mp h with h1 | h1
      · exfalso
        have : '.' = a := by
          have := congrArg (fun x => x.headI) h1
          simpa using this
        rw [ha] at this
        exact absurd this (by decide)
      · simpa [List.dropWhile_cons, ha] using ih h1
    · simpa [List.dropWhile_cons, ha] using h

lemma safe_after_sub :
    ∀ (l : List Char) (c : Char),
      c ∈ l.map (fun c => if unsafeChar c = true then '_' else c) →
      unsafeChar c = false := by
  intro l c hc
  rcases List.mem_map.mp hc with ⟨a, _, rfl⟩
  by_cases h : unsafeChar a = true
  · simp only [if_pos h]
    decide
  · simp only [if_neg h]
    simpa using h

lemma filename_tail_ok (f4 : List Char) (h4 : ∀ c ∈ f4, unsafeChar c = false) :
    ((".html").data) <:+
      ((if ((".html").data).isSuffixOf f4 = true then f4 else f4 ++ (".html").data).dropWhile
        (fun c => c = '_')) ∧
    ∀ c ∈ (if ((".html").data).isSuffixOf f4 = true then f4
            else f4 ++ (".html").data).dropWhile (fun c => c = '_'),
      unsafeChar c = false := by
  by_cases hs : ((".html").data).isSuffixOf f4 = true
  · simp only [if_pos hs]
    constructor
    · exact suffix_dropWhile_underscore f4 (List.isSuffixOf_iff_suffix.mp hs)
    · intro c hc
      exact h4 c (mem_of_mem_dropWhile hc)
  · simp only [if_neg hs]
    constructor
    · exact suffix_dropWhile_underscore _ (List.suffix_append f4 _)
    · intro c hc
      rcases List.mem_append.mp (mem_of_mem_dropWhile hc) with h | h
      · exact h4 c h
      · have hh : ∀ c ∈ (".html").data, unsafeChar c = false := by decide
        exact hh c h

/-- C8: for every URL, `get_filename_from_url` evaluates (its embedding is a
total function), its result has the fixed `.html` suffix, and no character
of the result is in the unsafe class of the sanitising `re.sub`. -/
theorem get_filename_total_html_safe :
    ∀ start url : List Char,
      ((".html").data) <:+ get_filename_from_url start url ∧
      ∀ c ∈ get_filename_from_url start url, unsafeChar c = false := by
  intro start url
  simp only [get_filename_from_url]
  exact filename_tail_ok _ (fun c hc => safe_after_sub _ c hc)

/-- The link-discovery characterisation: in document order, the resolved
href of each anchor, kept when it starts with the Site Origin string
`base_url` and contains no `#`, duplicates retained. -/
def discoveredLinks (start_url url : List Char) (doc : List Node) : List (List Char) :=
  doc.filterMap (fun n =>
    match n with
    | Node.other _ => none
    | Node.a href _ =>
      let absolute := urljoin url href
      if (base_url start_url).isPrefixOf absolute = true ∧ '#' ∉ absolute then some absolute
      else none)

/-- Modelled from the claim: "the ordered list of absolute,
fragment-stripped, in-scope URLs encountered in the page's hyperlinks,
deduplicated against URLs already present in that list within the same
page". -/
def claimedDiscovered (url : List Char) (doc : List Node) : List (List Char) :=
  (doc.filterMap (fun n =>
    match n with
    | Node.other _ => none
    | Node.a href _ =>
      let stripped := stripFragment (urljoin url href)
      if is_documentation_page stripped = true then some stripped else none)).foldl
    (fun acc x => if x ∈ acc then acc else acc ++ [x]) []

lemma extract_links_foldl_aux (start_url url : List Char) :
    ∀ (doc : List Node) (acc : List (List Char)),
      doc.foldl (extractBody start_url url) acc = acc ++ discoveredLinks start_url url doc := by
  intro doc
  induction doc with
  | nil => intro acc; simp [discoveredLinks]
  | cons n doc ih =>
    intro acc
    cases n with
    | other s => simp [List.foldl_cons, extractBody, discoveredLinks, List.filterMap_cons, ih]
    | a href text =>
      by_cases hcond :
          (base_url start_url).isPrefixOf (urljoin url href) = true ∧ '#' ∉ urljoin url href
      · simp only [List.foldl_cons, extractBody, if_pos hcond, ih]
        simp only [discoveredLinks, List.filterMap_cons, if_pos hcond]
        simp
      · simp only [List.foldl_cons, extractBody, if_neg hcond, ih]
        simp only [discoveredLinks, List.filterMap_cons, if_neg hcond]

/-- C2, amended claim: `extract_links` returns exactly the ordered list of
resolved absolute URLs that start with the Site Origin prefix and contain
no `#` — fragment-bearing URLs are skipped, not fragment-stripped; the
prefix test is against `self.base_url`, not the documentation scope; and
duplicates within a page are retained (deduplication happens only at
enqueue time in `scrape`). -/
theorem extract_links_characterisation :
    ∀ (start_url url : List Char) (doc : List Node),
      extract_links start_url url doc = discoveredLinks start_url url doc := by
  intro start_url url doc
  simpa using extract_links_foldl_aux start_url url doc []

/-- C2, counterexample: a page with the same in-scope link twice.  The
claim's deduplicated, fragment-stripped list keeps one copy, but
`extract_links` returns the URL twice. -/
theorem extract_links_keeps_duplicates :
    extract_links START_URL START_URL
        [Node.a (("x.html").data) [], Node.a (("x.html").data) []]
      = [("http://127.0.0.1:48626/hom/hou/x.html").data,
         ("http://127.0.0.1:48626/hom/hou/x.html").data] ∧
    claimedDiscovered START_URL
        [Node.a (("x.html").data) [], Node.a (("x.html").data) []]
      = [("http://127.0.0.1:48626/hom/hou/x.html").data] ∧
    extract_links START_URL START_URL
        [Node.a (("x.html").data) [], Node.a (("x.html").data) []]
      ≠ claimedDiscovered START_URL
          [Node.a (("x.html").data) [], Node.a (("x.html").data) []] := by
  refine ⟨by decide, by decide, by decide⟩

/-- A same-origin URL under the prefix check that is not on the Site
Origin: its port string strictly extends the origin's port. -/
def leakUrl : List Char :=
  ("http://127.0.0.1:486267/evil.html").data

/-- A one-page web used to exercise the scheduler on `leakUrl`. -/
def leakWeb : List Char → Option (List Char) := fun u =>
  if u = START_URL then some (("E").data) else none

/-- Parser for `leakWeb`: the seed page holds a single link to `leakUrl`. -/
def leakParse : List Char → List Node := fun h =>
  if h = ("E").data then [Node.a leakUrl []] else []

/-- C10: the same-origin test of `extract_links` is a plain string-prefix
check against `scheme://host:port`.  `leakUrl` lives on port `486267`,
a different origin than the seed's `48626`, yet its string extends the
origin prefix, so `extract_links` accepts it and one scheduler step on the
seed page enqueues it. -/
theorem origin_prefix_check_leaks :
    (urlparse leakUrl []).netloc ≠ (urlparse START_URL []).netloc ∧
    '#' ∉ leakUrl ∧
    (base_url START_URL).isPrefixOf leakUrl = true ∧
    extract_links START_URL START_URL [Node.a leakUrl []] = [leakUrl] ∧
    (scrape_step START_URL leakWeb leakParse (initState START_URL)).to_visit = [leakUrl] := by
  refine ⟨by decide, by decide, by decide, by decide, by decide⟩

/-- C3, counterexample: on the in-scope seed page, the same-page link
`href="#top"` is rewritten by `process_html_content` to
`hom_hou_index.html#top`, not left pointing at `#top`: the in-scope branch
fires before the same-page branch ever gets tested. -/
theorem same_page_fragment_not_kept :
    process_html_content START_URL START_URL [Node.a (("#top").data) (("T").data)]
      = [Node.a (("hom_hou_index.html#top").data) (("T").data)] ∧
    (("hom_hou_index.html#top").data) ≠ (("#top").data) := by
  refine ⟨by decide, by decide⟩

/-- The scope-root prefix `START_URL.replace("index.html", "")`: every
in-scope URL is this prefix followed by some path remainder. -/
def houScopeRoot : List Char := ("http://127.0.0.1:48626/hom/hou/").data

lemma urlsplit_scope_page (p : List Char) (hh : '#' ∉ p) (hq : '?' ∉ p) :
    urlsplit (houScopeRoot ++ p) []
      = ⟨("http").data, ("127.0.0.1:48626").data, ("/hom/hou/").data ++ p, [], []⟩ := by
  simp only [urlsplit]
  rw [show splitScheme (houScopeRoot ++ p)
      = some ((("http").data), (("//127.0.0.1:48626/hom/hou/").data ++ p)) from rfl]
  simp [hh, hq]
  decide

lemma urlparse_scope_page (p : List Char) (hh : '#' ∉ p) (hq : '?' ∉ p) (hs : ';' ∉ p) :
    urlparse (houScopeRoot ++ p) []
      = ⟨("http").data, ("127.0.0.1:48626").data, ("/hom/hou/").data ++ p, [], [], []⟩ := by
  simp only [urlparse, urlsplit_scope_page p hh hq]
  rw [if_neg]
  intro hcontra
  rcases List.mem_append.mp hcontra.2 with hx | hx
  · exact absurd hx (by decide)
  · exact hs hx

lemma urlparse_fragment_only (c : Char) (f d : List Char) :
    urlparse ('#' :: c :: f) d = ⟨d, [], [], [], [], c :: f⟩ := by
  simp only [urlparse, urlsplit]
  rw [show splitScheme ('#' :: c :: f) = none from rfl]
  simp [takeUntil, afterFirst]

lemma urljoin_fragment_general (url : List Char) (hne : url ≠ [])
    (hsch : (urlparse url []).scheme = ("http").data) (c : Char) (f : List Char) :
    urljoin url ('#' :: c :: f)
      = urlunparse ⟨("http").data, (urlparse url []).netloc, (urlparse url []).path,
          (urlparse url []).params, (urlparse url []).query, c :: f⟩ := by
  have h1 : ¬ ((("http").data ≠ ("http").data) ∨ (("http").data ∉ usesRelative)) := by decide
  have h2 : (("http").data ∈ usesNetloc) := by decide
  simp only [urljoin]
  rw [if_neg hne, if_neg (by simp : ¬ ('#' :: c :: f = ([] : List Char)))]
  rw [urlparse_fragment_only c f (urlparse url []).scheme, hsch]
  dsimp only
  rw [if_neg h1, if_neg (by simp), if_pos ⟨rfl, rfl⟩, if_pos h2, if_pos rfl]

lemma urljoin_fragment_scope_page (p : List Char) (hh : '#' ∉ p) (hq : '?' ∉ p)
    (hs : ';' ∉ p) (c : Char) (f : List Char) :
    urljoin (houScopeRoot ++ p) ('#' :: c :: f) = (houScopeRoot ++ p) ++ '#' :: c :: f := by
  rw [urljoin_fragment_general (houScopeRoot ++ p) (by simp [houScopeRoot])
      (by rw [urlparse_scope_page p hh hq hs]) c f]
  rw [urlparse_scope_page p hh hq hs]
  rfl

lemma is_documentation_page_scope_append (p : List Char) :
    is_documentation_page (houScopeRoot ++ p) = true := by
  have hX : (replaceAll (("index.html").data) [] START_URL).isPrefixOf
      (houScopeRoot ++ p) = true := by
    rw [show replaceAll (("index.html").data) [] START_URL = houScopeRoot from (by decide)]
    exact List.isPrefixOf_iff_prefix.mpr (List.prefix_append _ _)
  simp [is_documentation_page, hX]

/-- C3, amended claim: first, on every in-scope page — any URL extending the
documentation scope root by a fragment-, query- and params-free remainder,
which covers every page URL the scheduler ever rewrites — a fragment-only
link `#fragment` is rewritten to `canonicalFilename(page) + "#" + fragment`,
addressing the same anchor of the same page inside the mirror; second, for
every page and link, whenever the fragment-stripped resolved target is in
scope the href becomes `canonicalFilename(target) + "#" + fragment`, never
the bare fragment; third, the bare `"#" + fragment` form survives exactly
in the remaining same-page case, when the page itself is out of scope. -/
theorem same_page_fragment_to_local_filename :
    (∀ start p f t : List Char, '#' ∉ p → '?' ∉ p → ';' ∉ p → f ≠ [] → '#' ∉ f →
       is_documentation_page (houScopeRoot ++ p) = true ∧
       process_html_content start (houScopeRoot ++ p) [Node.a ('#' :: f) t]
         = [Node.a (get_filename_from_url start (houScopeRoot ++ p) ++ '#' :: f) t]) ∧
    (∀ start url href text : List Char, '#' ∈ urljoin url href →
       is_documentation_page (takeUntil '#' (urljoin url href)) = true →
       processNode start url (Node.a href text)
         = Node.a (get_filename_from_url start (takeUntil '#' (urljoin url href))
             ++ '#' :: takeUntil '#' (afterFirst '#' (urljoin url href))) text) ∧
    (∀ start url href text : List Char, '#' ∈ urljoin url href →
       is_documentation_page (takeUntil '#' (urljoin url href)) = false →
       takeUntil '#' (urljoin url href) = url →
       processNode start url (Node.a href text)
         = Node.a ('#' :: takeUntil '#' (afterFirst '#' (urljoin url href))) text) := by
  refine ⟨?_, ?_, ?_⟩
  · intro start p f t hh hq hs hfne hf
    obtain ⟨c, f', rfl⟩ : ∃ c f', f = c :: f' := by
      cases f with
      | nil => exact absurd rfl hfne
      | cons c f' => exact ⟨c, f', rfl⟩
    have hnotmem : '#' ∉ houScopeRoot ++ p := by
      intro hmem
      rcases List.mem_append.mp hmem with hx | hx
      · exact absurd hx (by decide)
      · exact hh hx
    refine ⟨is_documentation_page_scope_append p, ?_⟩
    simp only [process_html_content, List.map_cons, List.map_nil, processNode]
    rw [urljoin_fragment_scope_page p hh hq hs c f']
    rw [if_pos (List.mem_append_right _ (List.mem_cons_self _ _))]
    rw [takeUntil_append_cons, takeUntil_eq_self _ _ hnotmem]
    rw [afterFirst_append_cons _ _ _ hnotmem]
    rw [takeUntil_eq_self _ _ hf]
    rw [if_pos (is_documentation_page_scope_append p)]
  · intro start url href text hfrag hdoc
    simp only [processNode]
    rw [if_pos hfrag, if_pos hdoc]
  · intro start url href text hfrag hdoc hbase
    simp only [processNode]
    rw [if_pos hfrag, if_neg (by simp [hdoc]), if_pos hbase]

/-- C3, witness: instantiate the in-scope rewrite at `#top` on the seed page
(`houScopeRoot ++ "index.html"` is `START_URL`), and the out-of-scope
same-page branch at `#sec` on the same-origin but out-of-scope page
`http://127.0.0.1:48626/other.html`. -/
theorem same_page_fragment_to_local_filename_witness :
    (is_documentation_page (houScopeRoot ++ ("index.html").data) = true ∧
     process_html_content START_URL (houScopeRoot ++ ("index.html").data)
         [Node.a (("#top").data) []]
       = [Node.a (get_filename_from_url START_URL (houScopeRoot ++ ("index.html").data)
           ++ '#' :: ("top").data) []]) ∧
    processNode START_URL (("http://127.0.0.1:48626/other.html").data)
        (Node.a (("#sec").data) (("T").data))
      = Node.a ('#' :: takeUntil '#' (afterFirst '#'
          (urljoin (("http://127.0.0.1:48626/other.html").data) (("#sec").data))))
          (("T").data) :=
  ⟨same_page_fragment_to_local_filename.1 START_URL (("index.html").data) (("top").data) []
      (by decide) (by decide) (by decide) (by decide) (by decide),
   same_page_fragment_to_local_filename.2.2 START_URL
      (("http://127.0.0.1:48626/other.html").data) (("#sec").data) (("T").data)
      (by decide) (by decide) (by decide)⟩

/-- Shape of every href the Link Rewriter can emit: a same-page fragment
reference, or the canonical local filename of an in-scope URL, possibly
followed by a fragment.  In particular it is never an absolute
out-of-scope URL. -/
def hrefOk (start_url : List Char) : Node → Prop
  | Node.other _ => True
  | Node.a h _ =>
      (∃ f, h = '#' :: f) ∨
      (∃ b, is_documentation_page b = true ∧
        (h = get_filename_from_url start_url b ∨
         ∃ f, h = get_filename_from_url start_url b ++ '#' :: f))

lemma processNode_hrefOk (start_url url : List Char) (n : Node) :
    hrefOk start_url (processNode start_url url n) := by
  cases n with
  | other s => simp [processNode, hrefOk]
  | a href text =>
    simp only [processNode]
    by_cases h1 : '#' ∈ urljoin url href
    · rw [if_pos h1]
      by_cases h2 : is_documentation_page (takeUntil '#' (urljoin url href)) = true
      · rw [if_pos h2]
        simp only [hrefOk]
        exact Or.inr ⟨takeUntil '#' (urljoin url href), h2, Or.inr ⟨_, rfl⟩⟩
      · rw [if_neg h2]
        by_cases h3 : takeUntil '#' (urljoin url href) = url
        · rw [if_pos h3]
          simp only [hrefOk]
          exact Or.inl ⟨_, rfl⟩
        · rw [if_neg h3]
          simp only [hrefOk]
    · rw [if_neg h1]
      by_cases h2 : is_documentation_page (urljoin url href) = true
      · rw [if_pos h2]
        simp only [hrefOk]
        exact Or.inr ⟨_, h2, Or.inl rfl⟩
      · rw [if_neg h2]
        simp only [hrefOk]

/-- C6: the Link Rewriter never emits an out-of-scope href — every emitted
href is a fragment reference or a local canonical filename of an in-scope
URL — and every anchor whose fragment-stripped resolved target is out of
scope and is not the current page is replaced by its visible text. -/
theorem rewriter_strips_out_of_scope (start_url url : List Char) (doc : List Node) :
    (∀ n ∈ process_html_content start_url url doc, hrefOk start_url n) ∧
    (∀ href text : List Char,
      is_documentation_page (stripFragment (urljoin url href)) = false →
      stripFragment (urljoin url href) ≠ url →
      processNode start_url url (Node.a href text) = Node.other text) := by
  constructor
  · intro n hn
    rcases List.mem_map.mp hn with ⟨m, _, rfl⟩
    exact processNode_hrefOk start_url url m
  · intro href text hdoc hne
    simp only [processNode]
    by_cases h1 : '#' ∈ urljoin url href
    · rw [if_pos h1]
      have hd : ¬ is_documentation_page (takeUntil '#' (urljoin url href)) = true := by
        simp only [stripFragment] at hdoc
        simp [hdoc]
      rw [if_neg hd]
      have hne' : ¬ takeUntil '#' (urljoin url href) = url := by
        simpa [stripFragment] using hne
      rw [if_neg hne']
    · rw [if_neg h1]
      have heq : stripFragment (urljoin url href) = urljoin url href :=
        takeUntil_eq_self _ _ h1
      have hd : ¬ is_documentation_page (urljoin url href) = true := by
        rw [heq] at hdoc
        simp [hdoc]
      rw [if_neg hd]

/-- C6, witness: an external absolute link on the seed page is dropped to
its bare text, and the shape property holds on the processed page. -/
theorem rewriter_strips_out_of_scope_witness :
    hrefOk START_URL (Node.other (("ext").data)) ∧
    processNode START_URL START_URL
        (Node.a (("http://external.com/a.html").data) (("ext").data))
      = Node.other (("ext").data) := by
  constructor
  · exact (rewriter_strips_out_of_scope START_URL START_URL
      [Node.a (("http://external.com/a.html").data) (("ext").data)]).1
      (Node.other (("ext").data)) (by decide)
  · exact (rewriter_strips_out_of_scope START_URL START_URL []).2
      (("http://external.com/a.html").data) (("ext").data) (by decide) (by decide)

lemma scrape_run_not_cond {start : List Char} {web : List Char → Option (List Char)}
    {parse : List Char → List Node} {mp : Option Nat} {s : SState}
    (h : ¬ loopCond mp s = true) :
    ∀ n, scrape_run start web parse mp n s = s := by
  intro n
  cases n with
  | zero => rfl
  | succ n => simp [scrape_run, h]

lemma scrape_run_cond {start : List Char} {web : List Char → Option (List Char)}
    {parse : List Char → List Node} {mp : Option Nat} {s : SState}
    (h : loopCond mp s = true) (n : Nat) :
    scrape_run start web parse mp (n + 1) s
      = scrape_run start web parse mp n (scrape_step start web parse s) := by
  simp [scrape_run, h]

/-- Invariant-preservation schema: a property preserved by every guarded
step holds after any number of iterations. -/
lemma scrape_run_inv {start : List Char} {web : List Char → Option (List Char)}
    {parse : List Char → List Node} {mp : Option Nat} (P : SState → Prop)
    (hstep : ∀ s, P s → loopCond mp s = true → P (scrape_step start web parse s)) :
    ∀ n s, P s → P (scrape_run start web parse mp n s) := by
  intro n
  induction n with
  | zero => intro s hs; exact hs
  | succ n ih =>
    intro s hs
    by_cases hc : loopCond mp s = true
    · rw [scrape_run_cond hc]
      exact ih _ (hstep s hs hc)
    · rw [scrape_run_not_cond hc]
      exact hs

/-- C9: an HTTP 200 with an empty body is handled exactly like a raised
`RequestException`.  First, replacing the empty body of one URL by a fetch
failure changes no run at all; second, one step on such a URL only marks it
visited and records the fetch: nothing is persisted, no links are enqueued,
the page counter keeps its value and no `time.sleep` happens. -/
theorem empty_body_like_fetch_failure :
    (∀ (start : List Char) (web₁ web₂ : List Char → Option (List Char))
        (parse : List Char → List Node) (mp : Option Nat) (u : List Char),
      web₁ u = some [] → web₂ u = none → (∀ v, v ≠ u → web₁ v = web₂ v) →
      ∀ n s, scrape_run start web₁ parse mp n s = scrape_run start web₂ parse mp n s) ∧
    (∀ (start : List Char) (web : List Char → Option (List Char))
        (parse : List Char → List Node) (u : List Char) rest (s : SState),
      s.to_visit = u :: rest → u ∉ s.visited → web u = some [] →
      scrape_step start web parse s
        = { s with visited := u :: s.visited, to_visit := rest,
                   events := Ev.fetched u :: s.events }) := by
  constructor
  · intro start web₁ web₂ parse mp u h1 h2 hagree n
    induction n with
    | zero => intro s; rfl
    | succ n ih =>
      intro s
      have hstep : scrape_step start web₁ parse s = scrape_step start web₂ parse s := by
        simp only [scrape_step]
        cases hv : s.to_visit with
        | nil => rfl
        | cons current rest =>
          by_cases hc : current ∈ s.visited
          · simp [hc]
          · simp only [if_neg hc]
            by_cases hcu : current = u
            · subst hcu
              rw [h1, h2]
              simp
            · rw [hagree current hcu]
      simp only [scrape_run]
      rw [hstep]
      by_cases hc : loopCond mp s = true
      · simp only [if_pos hc]
        exact ih _
      · simp only [if_neg hc]
  · intro start web parse u rest s hv hu hw
    simp only [scrape_step, hv, if_neg hu, hw]
    simp

/-- C9, witness: one step on a seed whose fetch returns an empty body. -/
theorem empty_body_like_fetch_failure_witness :
    scrape_step START_URL (fun v => if v = START_URL then some [] else none)
        (fun _ => []) (initState START_URL)
      = { visited := [START_URL], to_visit := [], page_count := 0,
          events := [Ev.fetched START_URL] } := by
  have h := empty_body_like_fetch_failure.2 START_URL
    (fun v => if v = START_URL then some [] else none) (fun _ => [])
    START_URL [] (initState START_URL) rfl (by decide) (by simp)
  simpa [initState] using h

lemma fetchedUrls_fetched (u : List Char) (evs : List Ev) :
    fetchedUrls (Ev.fetched u :: evs) = u :: fetchedUrls evs := by
  simp [fetchedUrls, List.filterMap_cons]

lemma fetchedUrls_persisted (u : List Char) (evs : List Ev) :
    fetchedUrls (Ev.persisted u :: evs) = fetchedUrls evs := by
  simp [fetchedUrls, List.filterMap_cons]

lemma fetchedUrls_slept (evs : List Ev) :
    fetchedUrls (Ev.slept :: evs) = fetchedUrls evs := by
  simp [fetchedUrls, List.filterMap_cons]

lemma persistedUrls_fetched (u : List Char) (evs : List Ev) :
    persistedUrls (Ev.fetched u :: evs) = persistedUrls evs := by
  simp [persistedUrls, List.filterMap_cons]

lemma persistedUrls_persisted (u : List Char) (evs : List Ev) :
    persistedUrls (Ev.persisted u :: evs) = u :: persistedUrls evs := by
  simp [persistedUrls, List.filterMap_cons]

lemma persistedUrls_slept (evs : List Ev) :
    persistedUrls (Ev.slept :: evs) = persistedUrls evs := by
  simp [persistedUrls, List.filterMap_cons]

/-- Trace invariant behind the dedup guarantee: every fetched or persisted
URL is in the visited set, and neither trace repeats a URL. -/
def TraceInv (s : SState) : Prop :=
  (∀ u ∈ fetchedUrls s.events, u ∈ s.visited) ∧
  (∀ u ∈ persistedUrls s.events, u ∈ s.visited) ∧
  (fetchedUrls s.events).Nodup ∧
  (persistedUrls s.events).Nodup

lemma traceInv_step (start : List Char) (web : List Char → Option (List Char))
    (parse : List Char → List Node) :
    ∀ s, TraceInv s → TraceInv (scrape_step start web parse s) := by
  intro s h
  obtain ⟨hf, hp, hnf, hnp⟩ := h
  cases hv : s.to_visit with
  | nil =>
    simp only [scrape_step, hv]
    exact ⟨hf, hp, hnf, hnp⟩
  | cons current rest =>
    by_cases hc : current ∈ s.visited
    · simp only [scrape_step, hv, if_pos hc]
      exact ⟨hf, hp, hnf, hnp⟩
    · have hnewf : ∀ u ∈ current :: fetchedUrls s.events, u ∈ current :: s.visited := by
        intro u hu
        rcases List.mem_cons.mp hu with rfl | hu
        · exact List.mem_cons_self _ _
        · exact List.mem_cons_of_mem _ (hf u hu)
      have hkeepp : ∀ u ∈ persistedUrls s.events, u ∈ current :: s.visited :=
        fun u hu => List.mem_cons_of_mem _ (hp u hu)
      have hnodupf : (current :: fetchedUrls s.events).Nodup :=
        List.nodup_cons.mpr ⟨fun hmem => hc (hf _ hmem), hnf⟩
      cases hw : web current with
      | none =>
        simp only [scrape_step, hv, if_neg hc, hw]
        exact ⟨by simpa [fetchedUrls_fetched] using hnewf,
               by simpa [persistedUrls_fetched] using hkeepp,
               by simpa [fetchedUrls_fetched] using hnodupf,
               by simpa [persistedUrls_fetched] using hnp⟩
      | some html =>
        by_cases he : html = []
        · simp only [scrape_step, hv, if_neg hc, hw, if_pos he]
          exact ⟨by simpa [fetchedUrls_fetched] using hnewf,
                 by simpa [persistedUrls_fetched] using hkeepp,
                 by simpa [fetchedUrls_fetched] using hnodupf,
                 by simpa [persistedUrls_fetched] using hnp⟩
        · by_cases hd : is_documentation_page current = true
          · simp only [scrape_step, hv, if_neg hc, hw, if_neg he, if_pos hd]
            refine ⟨?_, ?_, ?_, ?_⟩
            · simpa [fetchedUrls_slept, fetchedUrls_persisted, fetchedUrls_fetched]
                using hnewf
            · simp only [persistedUrls_slept, persistedUrls_persisted, persistedUrls_fetched]
              intro u hu
              rcases List.mem_cons.mp hu with rfl | hu
              · exact List.mem_cons_self _ _
              · exact List.mem_cons_of_mem _ (hp u hu)
            · simpa [fetchedUrls_slept, fetchedUrls_persisted, fetchedUrls_fetched]
                using hnodupf
            · simp only [persistedUrls_slept, persistedUrls_persisted, persistedUrls_fetched]
              exact List.nodup_cons.mpr ⟨fun hmem => hc (hp _ hmem), hnp⟩
          · simp only [scrape_step, hv, if_neg hc, hw, if_neg he, if_neg hd]
            exact ⟨by simpa [fetchedUrls_slept, fetchedUrls_fetched] using hnewf,
                   by simpa [persistedUrls_slept, persistedUrls_fetched] using hkeepp,
                   by simpa [fetchedUrls_slept, fetchedUrls_fetched] using hnodupf,
                   by simpa [persistedUrls_slept, persistedUrls_fetched] using hnp⟩

/-- C5: over any run of the scheduler, whatever the web, the parser, the
budget and the fuel, no URL is ever fetched twice and no URL is ever
persisted twice — once a URL enters the visited set it is never processed
again, even when it is discovered from several pages. -/
theorem scrape_fetches_and_persists_once :
    ∀ (start : List Char) (web : List Char → Option (List Char))
      (parse : List Char → List Node) (mp : Option Nat) (n : Nat),
      (fetchedUrls (scrape_run start web parse mp n (initState start)).events).Nodup ∧
      (persistedUrls (scrape_run start web parse mp n (initState start)).events).Nodup := by
  intro start web parse mp n
  have h := @scrape_run_inv start web parse mp TraceInv
    (fun s hs _ => traceInv_step start web parse s hs) n (initState start)
    (by simp [TraceInv, fetchedUrls, persistedUrls, initState])
  exact ⟨h.2.2.1, h.2.2.2⟩

lemma loopCond_some_iff (m : Nat) (s : SState) :
    loopCond (some m) s = true ↔ s.to_visit ≠ [] ∧ s.page_count < m := by
  cases h : s.to_visit <;> simp [loopCond, h]

lemma scrape_step_progress (start : List Char) (web : List Char → Option (List Char))
    (parse : List Char → List Node) (s : SState) (h : s.to_visit ≠ []) :
    ((scrape_step start web parse s).page_count = s.page_count + 1) ∨
    ((scrape_step start web parse s).page_count = s.page_count ∧
     (scrape_step start web parse s).to_visit.length < s.to_visit.length) := by
  cases hv : s.to_visit with
  | nil => exact absurd hv h
  | cons current rest =>
    by_cases hc : current ∈ s.visited
    · right
      constructor
      · simp [scrape_step, hv, hc]
      · simp [scrape_step, hv, hc]
    · cases hw : web current with
      | none =>
        right
        constructor
        · simp [scrape_step, hv, hc, hw]
        · simp [scrape_step, hv, hc, hw]
      | some html =>
        by_cases he : html = []
        · right
          constructor
          · simp [scrape_step, hv, hc, hw, he]
          · simp [scrape_step, hv, hc, hw, he]
        · by_cases hd : is_documentation_page current = true
          · left
            simp [scrape_step, hv, hc, hw, he, hd]
          · right
            constructor
            · simp [scrape_step, hv, hc, hw, he, hd]
            · simp [scrape_step, hv, hc, hw, he, hd]

lemma scrape_terminates_aux (start : List Char) (web : List Char → Option (List Char))
    (parse : List Char → List Node) (m : Nat) :
    ∀ k L (s : SState), m - s.page_count ≤ k → s.to_visit.length ≤ L →
      ∃ n, loopCond (some m) (scrape_run start web parse (some m) n s) = false := by
  intro k
  induction k with
  | zero =>
    intro L s hk hL
    by_cases hc : loopCond (some m) s = true
    · exfalso
      have h1 := (loopCond_some_iff m s).mp hc
      omega
    · exact ⟨0, Bool.eq_false_iff.mpr hc⟩
  | succ k ihk =>
    intro L
    induction L with
    | zero =>
      intro s hk hL
      by_cases hc : loopCond (some m) s = true
      · exfalso
        have h1 := (loopCond_some_iff m s).mp hc
        exact h1.1 (List.length_eq_zero.mp (Nat.le_zero.mp hL))
      · exact ⟨0, Bool.eq_false_iff.mpr hc⟩
    | succ L ihL =>
      intro s hk hL
      by_cases hc : loopCond (some m) s = true
      · have h1 := (loopCond_some_iff m s).mp hc
        rcases scrape_step_progress start web parse s h1.1 with hp | ⟨hp, hq⟩
        · have hk' : m - (scrape_step start web parse s).page_count ≤ k := by
            rw [hp]
            omega
          obtain ⟨n, hn⟩ := ihk (scrape_step start web parse s).to_visit.length
            (scrape_step start web parse s) hk' le_rfl
          exact ⟨n + 1, by rw [scrape_run_cond hc]; exact hn⟩
        · have hk' : m - (scrape_step start web parse s).page_count ≤ k + 1 := by
            rw [hp]
            omega
          have hL' : (scrape_step start web parse s).to_visit.length ≤ L := by omega
          obtain ⟨n, hn⟩ := ihL (scrape_step start web parse s) hk' hL'
          exact ⟨n + 1, by rw [scrape_run_cond hc]; exact hn⟩
      · exact ⟨0, Bool.eq_false_iff.mpr hc⟩

lemma enqueue_sub (visited q links : List (List Char)) :
    ∀ x ∈ q, x ∈ enqueue visited q links := by
  induction links generalizing q with
  | nil => intro x hx; exact hx
  | cons l ls ih =>
    intro x hx
    simp only [enqueue, List.foldl_cons]
    by_cases hcond : l ∈ visited ∨ l ∈ q
    · rw [if_pos hcond]
      exact ih q x hx
    · rw [if_neg hcond]
      exact ih (q ++ [l]) x (List.mem_append_left _ hx)

lemma enqueue_mem_links (visited q links : List (List Char)) :
    ∀ v ∈ links, v ∈ visited ∨ v ∈ enqueue visited q links := by
  induction links generalizing q with
  | nil => intro v hv; cases hv
  | cons l ls ih =>
    intro v hv
    simp only [enqueue, List.foldl_cons]
    rcases List.mem_cons.mp hv with rfl | hv
    · by_cases hvis : v ∈ visited
      · exact Or.inl hvis
      · right
        by_cases hq : v ∈ q
        · rw [if_pos (Or.inr hq)]
          exact enqueue_sub visited q ls v hq
        · rw [if_neg (by tauto)]
          exact enqueue_sub visited (q ++ [v]) ls v (List.mem_append_right _ (by simp))
    · exact ih _ v hv

/-- Crawl invariant for the budget scenario: the page counter counts the
persisted pages, persisted pages are pairwise distinct and visited, every
visited in-scope page with a successful non-empty fetch was persisted, the
links of every persisted page are in the visited set or the queue, and the
seed is in the visited set or the queue. -/
def ScrInv (start : List Char) (web : List Char → Option (List Char))
    (parse : List Char → List Node) (s : SState) : Prop :=
  s.page_count = (persistedUrls s.events).length ∧
  (persistedUrls s.events).Nodup ∧
  (∀ u ∈ persistedUrls s.events, u ∈ s.visited) ∧
  (∀ u ∈ s.visited, is_documentation_page u = true →
     ∀ body, web u = some body → body ≠ [] → u ∈ persistedUrls s.events) ∧
  (∀ p ∈ persistedUrls s.events, ∀ body, web p = some body →
     ∀ v ∈ extract_links start p (parse body), v ∈ s.visited ∨ v ∈ s.to_visit) ∧
  (start ∈ s.visited ∨ start ∈ s.to_visit)

lemma scrInv_step (start : List Char) (web : List Char → Option (List Char))
    (parse : List Char → List Node) :
    ∀ s, ScrInv start web parse s → ScrInv start web parse (scrape_step start web parse s) := by
  intro s h
  obtain ⟨h1, h2, h3, h4, h5, h6⟩ := h
  cases hv : s.to_visit with
  | nil =>
    simp only [scrape_step, hv]
    exact ⟨h1, h2, h3, h4, h5, by simpa [hv] using h6⟩
  | cons current rest =>
    by_cases hc : current ∈ s.visited
    · simp only [scrape_step, hv, if_pos hc]
      refine ⟨h1, h2, h3, h4, ?_, ?_⟩
      · intro p hp body hw v hvl
        rcases h5 p hp body hw v hvl with hx | hx
        · exact Or.inl hx
        · rw [hv] at hx
          rcases List.mem_cons.mp hx with rfl | hx
          · exact Or.inl hc
          · exact Or.inr hx
      · rcases h6 with hx | hx
        · exact Or.inl hx
        · rw [hv] at hx
          rcases List.mem_cons.mp hx with rfl | hx
          · exact Or.inl hc
          · exact Or.inr hx
    · have keep5 :
          ∀ p ∈ persistedUrls s.events, ∀ body, web p = some body →
            ∀ v ∈ extract_links start p (parse body), v ∈ current :: s.visited ∨ v ∈ rest := by
        intro p hp body hw v hvl
        rcases h5 p hp body hw v hvl with hx | hx
        · exact Or.inl (List.mem_cons_of_mem _ hx)
        · rw [hv] at hx
          rcases List.mem_cons.mp hx with rfl | hx
          · exact Or.inl (List.mem_cons_self _ _)
          · exact Or.inr hx
      have keep6 : start ∈ current :: s.visited ∨ start ∈ rest := by
        rcases h6 with hx | hx
        · exact Or.inl (List.mem_cons_of_mem _ hx)
        · rw [hv] at hx
          rcases List.mem_cons.mp hx with rfl | hx
          · exact Or.inl (List.mem_cons_self _ _)
          · exact Or.inr hx
      have keep3 : ∀ u ∈ persistedUrls s.events, u ∈ current :: s.visited :=
        fun u hu => List.mem_cons_of_mem _ (h3 u hu)
      cases hw : web current with
      | none =>
        simp only [scrape_step, hv, if_neg hc, hw]
        refine ⟨by simpa [persistedUrls_fetched] using h1,
                by simpa [persistedUrls_fetched] using h2,
                by simpa [persistedUrls_fetched] using keep3, ?_, ?_, keep6⟩
        · simp only [persistedUrls_fetched]
          intro u hu hd body hwb hbne
          rcases List.mem_cons.mp hu with rfl | hu
          · rw [hw] at hwb
            cases hwb
          · exact h4 u hu hd body hwb hbne
        · simpa [persistedUrls_fetched] using keep5
      | some html =>
        by_cases he : html = []
        · simp only [scrape_step, hv, if_neg hc, hw, if_pos he]
          refine ⟨by simpa [persistedUrls_fetched] using h1,
                  by simpa [persistedUrls_fetched] using h2,
                  by simpa [persistedUrls_fetched] using keep3, ?_, ?_, keep6⟩
          · simp only [persistedUrls_fetched]
            intro u hu hd body hwb hbne
            rcases List.mem_cons.mp hu with rfl | hu
            · rw [hw] at hwb
              subst he
              exact absurd (Option.some.inj hwb).symm hbne
            · exact h4 u hu hd body hwb hbne
          · simpa [persistedUrls_fetched] using keep5
        · by_cases hd : is_documentation_page current = true
          · simp only [scrape_step, hv, if_neg hc, hw, if_neg he, if_pos hd]
            refine ⟨?_, ?_, ?_, ?_, ?_, ?_⟩ <;>
              simp only [persistedUrls_slept, persistedUrls_persisted, persistedUrls_fetched]
            · simp [h1]
            · exact List.nodup_cons.mpr ⟨fun hm => hc (h3 _ hm), h2⟩
            · intro u hu
              rcases List.mem_cons.mp hu with rfl | hu
              · exact List.mem_cons_self _ _
              · exact keep3 u hu
            · intro u hu hdu body hwb hbne
              rcases List.mem_cons.mp hu with rfl | hu
              · exact List.mem_cons_self _ _
              · exact List.mem_cons_of_mem _ (h4 u hu hdu body hwb hbne)
            · intro p hp body hwb v hvl
              rcases List.mem_cons.mp hp with rfl | hp
              · rw [hw] at hwb
                have hb : body = html := (Option.some.inj hwb).symm
                subst hb
                exact enqueue_mem_links (p :: s.visited) rest
                  (extract_links start p (parse body)) v hvl
              · rcases keep5 p hp body hwb v hvl with hx | hx
                · exact Or.inl hx
                · exact Or.inr (enqueue_sub _ _ _ v hx)
            · rcases keep6 with hx | hx
              · exact Or.inl hx
              · exact Or.inr (enqueue_sub _ _ _ start hx)
          · simp only [scrape_step, hv, if_neg hc, hw, if_neg he, if_neg hd]
            refine ⟨?_, ?_, ?_, ?_, ?_, ?_⟩ <;>
              simp only [persistedUrls_slept, persistedUrls_fetched]
            · exact h1
            · exact h2
            · exact keep3
            · intro u hu hdu body hwb hbne
              rcases List.mem_cons.mp hu with rfl | hu
              · exact absurd hdu hd
              · exact h4 u hu hdu body hwb hbne
            · exact keep5
            · exact keep6

lemma scrape_step_count_le (start : List Char) (web : List Char → Option (List Char))
    (parse : List Char → List Node) (s : SState) :
    (scrape_step start web parse s).page_count ≤ s.page_count + 1 := by
  cases hv : s.to_visit with
  | nil => simp [scrape_step, hv]
  | cons current rest =>
    by_cases hc : current ∈ s.visited
    · simp [scrape_step, hv, hc]
    · cases hw : web current with
      | none => simp [scrape_step, hv, hc, hw]
      | some html =>
        by_cases he : html = []
        · simp [scrape_step, hv, hc, hw, he]
        · by_cases hd : is_documentation_page current = true
          · simp [scrape_step, hv, hc, hw, he, hd]
          · simp [scrape_step, hv, hc, hw, he, hd]

lemma scrape_run_count_le (start : List Char) (web : List Char → Option (List Char))
    (parse : List Char → List Node) (m : Nat) (n : Nat) (s : SState)
    (hs : s.page_count ≤ m) :
    (scrape_run start web parse (some m) n s).page_count ≤ m := by
  refine @scrape_run_inv start web parse (some m) (fun s => s.page_count ≤ m) ?_ n s hs
  intro s hle hcond
  have h1 := ((loopCond_some_iff m s).mp hcond).2
  have h2 := scrape_step_count_le start web parse s
  omega

lemma nodup_subset_length {S T : List (List Char)} (hnd : S.Nodup)
    (hsub : ∀ u ∈ S, u ∈ T) : S.length ≤ T.length := by
  classical
  calc S.length = S.toFinset.card := (List.toFinset_card_of_nodup hnd).symm
    _ ≤ T.toFinset.card := Finset.card_le_card
        (fun x hx => List.mem_toFinset.mpr (hsub x (List.mem_toFinset.mp hx)))
    _ ≤ T.length := List.toFinset_card_le T

lemma reaches_subset_visited (start : List Char) (web : List Char → Option (List Char))
    (parse : List Char → List Node) (s : SState)
    (hInv : ScrInv start web parse s) (hempty : s.to_visit = []) :
    ∀ u, Reaches start web parse u → u ∈ s.visited := by
  intro u hu
  induction hu with
  | seed =>
    rcases hInv.2.2.2.2.2 with hx | hx
    · exact hx
    · rw [hempty] at hx
      cases hx
  | step hr hwb hbne hd hvl ih =>
    have hp := hInv.2.2.2.1 _ ih hd _ hwb hbne
    rcases hInv.2.2.2.2.1 _ hp _ hwb _ hvl with hx | hx
    · exact hx
    · rw [hempty] at hx
      cases hx

/-- C7: with a finite page budget the crawl always reaches a state in which
the while-guard is false (Done); and whenever at least five distinct
in-scope, successfully fetchable pages are discoverable from the seed, a
run with budget 2 that has reached Done has persisted exactly two pages
and still holds a non-empty pending queue. -/
theorem scrape_finite_budget_two_pages :
    (∀ (start : List Char) (web : List Char → Option (List Char))
        (parse : List Char → List Node) (m : Nat),
      ∃ n, loopCond (some m) (scrape_run start web parse (some m) n (initState start)) = false) ∧
    (∀ (start : List Char) (web : List Char → Option (List Char))
        (parse : List Char → List Node) (S : List (List Char)) (n : Nat),
      S.Nodup → 5 ≤ S.length →
      (∀ u ∈ S, Reaches start web parse u ∧ is_documentation_page u = true ∧
        ∃ body, web u = some body ∧ body ≠ []) →
      loopCond (some 2) (scrape_run start web parse (some 2) n (initState start)) = false →
      (scrape_run start web parse (some 2) n (initState start)).page_count = 2 ∧
      (persistedUrls (scrape_run start web parse (some 2) n (initState start)).events).length = 2 ∧
      (scrape_run start web parse (some 2) n (initState start)).to_visit ≠ []) := by
  constructor
  · intro start web parse m
    exact scrape_terminates_aux start web parse m m 1 (initState start)
      (by simp [initState]) (by simp [initState])
  · intro start web parse S n hnd hlen hS hfin
    have hInv : ScrInv start web parse (scrape_run start web parse (some 2) n (initState start)) := by
      refine @scrape_run_inv start web parse (some 2) (ScrInv start web parse)
        (fun s hs _ => scrInv_step start web parse s hs) n (initState start) ?_
      refine ⟨by simp [initState, persistedUrls], by simp [initState, persistedUrls],
        ?_, ?_, ?_, ?_⟩
      · intro u hu
        simp [initState, persistedUrls] at hu
      · intro u hu
        simp [initState] at hu
      · intro p hp
        simp [initState, persistedUrls] at hp
      · simp [initState]
    have hcnt : (scrape_run start web parse (some 2) n (initState start)).page_count ≤ 2 :=
      scrape_run_count_le start web parse 2 n (initState start) (by simp [initState])
    have hnotempty :
        (scrape_run start web parse (some 2) n (initState start)).to_visit = [] → False := by
      intro hemp
      have hvis := reaches_subset_visited start web parse _ hInv hemp
      have hsub : ∀ u ∈ S,
          u ∈ persistedUrls (scrape_run start web parse (some 2) n (initState start)).events := by
        intro u hu
        obtain ⟨hr, hd, body, hwb, hbne⟩ := hS u hu
        exact hInv.2.2.2.1 u (hvis u hr) hd body hwb hbne
      have hle := nodup_subset_length hnd hsub
      have h1 := hInv.1
      omega
    have hfin' : ¬ ((scrape_run start web parse (some 2) n (initState start)).to_visit ≠ [] ∧
        (scrape_run start web parse (some 2) n (initState start)).page_count < 2) := by
      rw [← loopCond_some_iff 2]
      simp [hfin]
    push_neg at hfin'
    by_cases hq : (scrape_run start web parse (some 2) n (initState start)).to_visit = []
    · exact absurd hq hnotempty
    · have hge := hfin' hq
      refine ⟨by omega, ?_, hq⟩
      have h1 := hInv.1
      omega

/-- Scenario page 2 of the budget-2 demonstration web. -/
def scenP2 : List Char := ("http://127.0.0.1:48626/hom/hou/p2.html").data

/-- Scenario page 3 of the budget-2 demonstration web. -/
def scenP3 : List Char := ("http://127.0.0.1:48626/hom/hou/p3.html").data

/-- Scenario page 4 of the budget-2 demonstration web. -/
def scenP4 : List Char := ("http://127.0.0.1:48626/hom/hou/p4.html").data

/-- Scenario page 5 of the budget-2 demonstration web. -/
def scenP5 : List Char := ("http://127.0.0.1:48626/hom/hou/p5.html").data

/-- Demonstration web: the seed page links to four further in-scope pages,
all fetchable with non-empty bodies. -/
def scenWeb : List Char → Option (List Char) := fun u =>
  if u = START_URL then some (("1").data)
  else if u = scenP2 ∨ u = scenP3 ∨ u = scenP4 ∨ u = scenP5 then some (("2").data)
  else none

/-- Parser of the demonstration web: the seed body holds the four links,
every other body holds none. -/
def scenParse : List Char → List Node := fun h =>
  if h = ("1").data then
    [Node.a scenP2 [], Node.a scenP3 [], Node.a scenP4 [], Node.a scenP5 []]
  else []

/-- The five discoverable in-scope pages of the demonstration web. -/
def scenS : List (List Char) := [START_URL, scenP2, scenP3, scenP4, scenP5]

/-- C7, witness: on the demonstration web with budget 2, after two loop
iterations the run is Done with exactly two pages persisted and three URLs
still pending. -/
theorem scrape_finite_budget_two_pages_witness :
    (scrape_run START_URL scenWeb scenParse (some 2) 2 (initState START_URL)).page_count = 2 ∧
    (persistedUrls
      (scrape_run START_URL scenWeb scenParse (some 2) 2 (initState START_URL)).events).length = 2 ∧
    (scrape_run START_URL scenWeb scenParse (some 2) 2 (initState START_URL)).to_visit ≠ [] := by
  refine scrape_finite_budget_two_pages.2 START_URL scenWeb scenParse scenS 2
    (by decide) (by decide) ?_ (by decide)
  intro u hu
  have hstep : ∀ v, v ∈ extract_links START_URL START_URL (scenParse (("1").data)) →
      Reaches START_URL scenWeb scenParse v := by
    intro v hv
    exact Reaches.step Reaches.seed (show scenWeb START_URL = some (("1").data) from rfl)
      (by decide) (by decide) hv
  simp only [scenS, List.mem_cons, List.mem_singleton] at hu
  rcases hu with rfl | rfl | rfl | rfl | rfl | hu
  · exact ⟨Reaches.seed, by decide, (("1").data), by decide, by decide⟩
  · exact ⟨hstep _ (by decide), by decide, (("2").data), by decide, by decide⟩
  · exact ⟨hstep _ (by decide), by decide, (("2").data), by decide, by decide⟩
  · exact ⟨hstep _ (by decide), by decide, (("2").data), by decide, by decide⟩
  · exact ⟨hstep _ (by decide), by decide, (("2").data), by decide, by decide⟩
  · cases hu

/-- C8, witness: instantiate totality, the `.html` suffix and character
safety at the seed URL, whose filename is `hom_hou_index.html`. -/
theorem get_filename_total_html_safe_witness :
    (((".html").data) <:+ get_filename_from_url START_URL START_URL) ∧
    unsafeChar 'h' = false :=
  ⟨(get_filename_total_html_safe START_URL START_URL).1,
   (get_filename_total_html_safe START_URL START_URL).2 'h' (by decide)⟩
